import Mathlib

/-!
go-dedupe: the duplicate migration of `main.go`.

A shallow embedding of `migrate` and `processDuplicates` (main.go, lines 100-160) and of the
index step `hashLookup[hash] = append(hashLookup[hash], path)` (main.go, line 46).

The filesystem is a finite map from paths to files.  A file carries an inode number (its
identity), its content, its permission bits and its owner and group; two paths may hold the
same file (hard links).  The five calls the code makes (`os.Stat`, `os.Rename`, `apfs.CloneFile`,
`os.Chmod`, `os.Chown`) either succeed with their documented effect or fail and leave the
filesystem as it was.  Whether the operating system lets a call through is read from an
environment record, so that every combination of outcomes is covered; a call that is let
through still fails when its precondition does not hold (the file to stat, rename, clone,
chmod or chown is missing, the destination of a clone exists).

The functions return, next to what the Go functions return and the filesystem they leave, a
log of what they did: one record per member whose loop body ran, with the calls made, their
results and the filesystem between the calls.  The properties are stated on these records.
-/

namespace Dedupe

/-! ## The filesystem and the calls -/

/-- A file path, a Go `string`. -/
abbrev Path := String

/-- A file: inode number, content bytes, permission bits, owner id and group id. -/
structure File where
  ino : Nat
  content : List Nat
  mode : Nat
  uid : Nat
  gid : Nat
deriving DecidableEq

/-- The filesystem: the directory entries, each a path with the file it holds. -/
structure FS where
  entries : List (Path × File)
deriving DecidableEq

/-- The file of the first entry of `l` with the path `p`. -/
def lookup : List (Path × File) → Path → Option File
  | [], _ => none
  | e :: l, p => if p = e.1 then some e.2 else lookup l p

/-- The file at the path `p`, if there is one. -/
def FS.files (fs : FS) (p : Path) : Option File := lookup fs.entries p

/-- An inode number above every inode number in use. -/
def FS.next (fs : FS) : Nat := (fs.entries.map (fun e => e.2.ino)).foldr max 0 + 1

/-- The filesystem with no file at `p`. -/
def FS.del (fs : FS) (p : Path) : FS := ⟨fs.entries.filter (fun e => e.1 ≠ p)⟩

/-- The filesystem with the file `f` at `p`. -/
def FS.put (fs : FS) (p : Path) (f : File) : FS := ⟨(p, f) :: (fs.del p).entries⟩

/-- The filesystem with the file `f` moved from `a` to `b`. -/
def FS.move (fs : FS) (a b : Path) (f : File) : FS := (fs.del a).put b f

/-- The backup path of main.go line 126, `fmt.Sprintf("%s.bak", path)`. -/
def bak (p : Path) : Path := p ++ ".bak"

/-- What the operating system does with the calls of one member: a flag per call (true: the
call is let through), and the owner and group a file created by a clone receives. -/
structure Env where
  stat : Bool
  backup : Bool
  clone : Bool
  rollback : Bool
  chmod : Bool
  chown : Bool
  cuid : Nat
  cgid : Nat

/-- The call `os.Stat(path)`: the file's information, or none on failure. -/
def osStat (ok : Bool) (fs : FS) (p : Path) : Option File :=
  if ok then fs.files p else none

/-- The filesystem with the file of inode number `i` changed by `g`, under every path that
holds it. -/
def FS.update (fs : FS) (i : Nat) (g : File → File) : FS :=
  ⟨fs.entries.map (fun e => if e.2.ino = i then (e.1, g e.2) else e)⟩

/-- The call `os.Rename(old, new)`: moves the file at `old` to `new`, replacing a file that is
already there; when `new` already holds the same file (the two paths are hard links to one
inode) nothing is done and the call succeeds, as rename(2) specifies; none on failure. -/
def osRename (ok : Bool) (fs : FS) (old new : Path) : Option FS :=
  if ok then
    match fs.files old with
    | none => none
    | some f =>
      if (fs.files new).map (fun g => g.ino) = some f.ino then some fs
      else some (fs.move old new f)
  else none

/-- The call `apfs.CloneFile(src, dst, CLONE_NOFOLLOW)`: creates at the free path `dst` a new
file (an inode number not in use) with the content and permission bits of the file at
`src`; none on failure. -/
def cloneFile (ok : Bool) (cuid cgid : Nat) (fs : FS) (src dst : Path) : Option FS :=
  if ok then
    match fs.files src, fs.files dst with
    | some s, none => some (fs.put dst ⟨fs.next, s.content, s.mode, cuid, cgid⟩)
    | _, _ => none
  else none

/-- The call `os.Chmod(path, mode)`: sets the permission bits of the file at `path`; none on
failure. -/
def osChmod (ok : Bool) (fs : FS) (p : Path) (mode : Nat) : Option FS :=
  if ok then
    match fs.files p with
    | none => none
    | some f => some (fs.update f.ino (fun h => ⟨h.ino, h.content, mode, h.uid, h.gid⟩))
  else none

/-- The call `os.Chown(path, uid, gid)`: sets the owner and group of the file at `path`; none
on failure. -/
def osChown (ok : Bool) (fs : FS) (p : Path) (uid gid : Nat) : Option FS :=
  if ok then
    match fs.files p with
    | none => none
    | some f => some (fs.update f.ino (fun h => ⟨h.ino, h.content, h.mode, uid, gid⟩))
  else none

/-! ## The code -/

/-- The filesystem calls of the loop body. -/
inductive Op where
  | stat
  | backup
  | clone
  | rollback
  | chmod
  | chown
deriving DecidableEq

/-- How the loop body ends for one member: the two `return` exits (lines 122 and 128), the
`continue` after a clone failure with the rollback rename done or failed (lines 137-140), and
the end of the body after a clone (line 157). -/
inductive Outcome where
  | statFailed
  | backupFailed
  | rolledBack
  | irreversible
  | committed
deriving DecidableEq

/-- One run of the loop body: how it ended, the calls made with their results, the filesystem
between each two consecutive calls, and the filesystem after the last call. -/
structure TxResult where
  out : Outcome
  calls : List (Op × Bool)
  mid : List FS
  fs : FS
deriving DecidableEq

/-- The body of the loop of `processDuplicates` (lines 119-151) for the member `p` of a group
whose first path is `canon`. -/
def transaction (canon p : Path) (e : Env) (fs : FS) : TxResult :=
  match osStat e.stat fs p with
  | none => ⟨.statFailed, [(.stat, false)], [], fs⟩
  | some info =>
    match osRename e.backup fs p (bak p) with
    | none => ⟨.backupFailed, [(.stat, true), (.backup, false)], [fs], fs⟩
    | some fs1 =>
      match cloneFile e.clone e.cuid e.cgid fs1 canon p with
      | none =>
        match osRename e.rollback fs1 (bak p) p with
        | none =>
          ⟨.irreversible, [(.stat, true), (.backup, true), (.clone, false), (.rollback, false)],
            [fs, fs1, fs1], fs1⟩
        | some fs2 =>
          ⟨.rolledBack, [(.stat, true), (.backup, true), (.clone, false), (.rollback, true)],
            [fs, fs1, fs1], fs2⟩
      | some fs2 =>
        let r3 := osChmod e.chmod fs2 p info.mode
        let fs3 := r3.getD fs2
        let r4 := osChown e.chown fs3 p info.uid info.gid
        let fs4 := r4.getD fs3
        ⟨.committed,
          [(.stat, true), (.backup, true), (.clone, true), (.chmod, r3.isSome),
            (.chown, r4.isSome)],
          [fs, fs1, fs2, fs3], fs4⟩

/-- The record of one member's run of the loop body: its index in the group, its path, the
filesystem before, and the result. -/
structure Record where
  member : Nat
  path : Path
  before : FS
  out : Outcome
  calls : List (Op × Bool)
  mid : List FS
  after : FS
deriving DecidableEq

/-- The error value `processDuplicates` returns (lines 122 and 128). -/
inductive MigError where
  | stat (p : Path)
  | backup (p : Path)
deriving DecidableEq

/-- The result of `processDuplicates`: the returned error (none is Go's nil), the filesystem
afterwards, and the record of each member whose loop body ran, in order. -/
structure RunResult where
  err : Option MigError
  fs : FS
  log : List Record
deriving DecidableEq

/-- The loop of `processDuplicates` from the member of index `i` on. -/
def processLoop (canon : Path) (env : Nat → Env) : Nat → List Path → FS → RunResult
  | _, [], fs => ⟨none, fs, []⟩
  | i, p :: rest, fs =>
    let t := transaction canon p (env i) fs
    let r : Record := ⟨i, p, fs, t.out, t.calls, t.mid, t.fs⟩
    match t.out with
    | .statFailed => ⟨some (.stat p), t.fs, [r]⟩
    | .backupFailed => ⟨some (.backup p), t.fs, [r]⟩
    | _ =>
      let rr := processLoop canon env (i + 1) rest t.fs
      ⟨rr.err, rr.fs, r :: rr.log⟩

/-- The function `processDuplicates` (lines 112-160): the member of index 0 is skipped, the
others run the loop body with `paths[0]` as the clone source. -/
def processDuplicates (paths : List Path) (env : Nat → Env) (fs : FS) : RunResult :=
  match paths with
  | [] => ⟨none, fs, []⟩
  | canon :: rest => processLoop canon env 1 rest fs

/-- The record of one group handed to `processDuplicates` by `migrate`: its position in the
iteration, its paths, the filesystem before, and the result. -/
structure GroupRun where
  group : Nat
  paths : List Path
  before : FS
  res : RunResult
deriving DecidableEq

/-- The result of `migrate`: the returned error, the filesystem afterwards, and the record
of each group that was handed to `processDuplicates`, in order. -/
structure MigrateResult where
  err : Option MigError
  fs : FS
  log : List GroupRun
deriving DecidableEq

/-- The loop of `migrate` (lines 101-108) from the group of position `g` on; the index is
given as the list of its entries in the order the iteration visits them. -/
def migrateLoop (env : Nat → Nat → Env) :
    Nat → List (String × List Path) → FS → FS × List GroupRun
  | _, [], fs => (fs, [])
  | g, (_, paths) :: rest, fs =>
    if paths.length ≤ 1 then migrateLoop env (g + 1) rest fs
    else
      let r := processDuplicates paths (env g) fs
      let rr := migrateLoop env (g + 1) rest r.fs
      (rr.1, ⟨g, paths, fs, r⟩ :: rr.2)

/-- The function `migrate` (lines 100-110): the value of `processDuplicates` is dropped and
the function ends with `return nil`. -/
def migrate (index : List (String × List Path)) (env : Nat → Nat → Env) (fs : FS) :
    MigrateResult :=
  let r := migrateLoop env 0 index fs
  ⟨none, r.1, r.2⟩

/-- The index step of main.go line 46, `hashLookup[hash] = append(hashLookup[hash], path)`;
a key that is absent reads as the empty list. -/
def record (index : String → List Path) (path : Path) (hash : String) : String → List Path :=
  fun h => if h = hash then index h ++ [path] else index h

/-- The global `hashLookup` (line 17) after the walk has recorded the pairs (path, hash) in
order, starting from the empty map. -/
def hashLookup (recs : List (Path × String)) : String → List Path :=
  recs.foldl (fun index r => record index r.1 r.2) (fun _ => [])

/-! ## Sample inputs -/

/-- The calls of a member whose loop body ran to its end with every call succeeding. -/
def callsAllOk : List (Op × Bool) :=
  [(.stat, true), (.backup, true), (.clone, true), (.chmod, true), (.chown, true)]

/-- The calls of a member whose clone failed and whose rollback rename succeeded. -/
def callsRolledBack : List (Op × Bool) :=
  [(.stat, true), (.backup, true), (.clone, false), (.rollback, true)]

/-- The number of members of a run of `migrate` whose loop body ended with `o`. -/
def countOut (o : Outcome) (m : MigrateResult) : Nat :=
  (m.log.map (fun g => (g.res.log.filter (fun r => r.out = o)).length)).sum

/-- An environment that lets every call through. -/
def allOk : Env := ⟨true, true, true, true, true, true, 0, 0⟩

/-- The environment that lets every call through except those of the member of index `i`,
which get the flags `e`. -/
def failAt (i : Nat) (e : Env) : Nat → Env := fun j => if j = i then e else allOk

/-- The flags of a member whose stat fails. -/
def statFails : Env := ⟨false, true, true, true, true, true, 0, 0⟩

/-- The flags of a member whose backup rename fails. -/
def backupFails : Env := ⟨true, false, true, true, true, true, 0, 0⟩

/-- The flags of a member whose clone fails. -/
def cloneFails : Env := ⟨true, true, false, true, true, true, 0, 0⟩

/-- The flags of a member whose rollback rename fails (after a clone that is let through). -/
def rollbackFails : Env := ⟨true, true, true, false, true, true, 0, 0⟩

/-- The flags of a member whose clone fails and whose rollback rename fails. -/
def cloneAndRollbackFail : Env := ⟨true, true, false, false, true, true, 0, 0⟩

/-- A sample file, mode 0644. -/
def fileA : File := ⟨1, [104, 105], 420, 501, 20⟩

/-- A sample file with the content of `fileA`, mode 0600, another owner. -/
def fileB : File := ⟨2, [104, 105], 384, 502, 20⟩

/-- A sample file with the content of `fileA`, mode 0640, another owner and group. -/
def fileC : File := ⟨3, [104, 105], 416, 503, 21⟩

/-- A sample file with a content of its own. -/
def fileD : File := ⟨4, [98, 121, 101], 420, 501, 20⟩

/-- A sample directory: `a.txt`, `b.txt`, `c.txt` with the same content and `d.txt`. -/
def sampleFS : FS :=
  ⟨[("a.txt", fileA), ("b.txt", fileB), ("c.txt", fileC), ("d.txt", fileD)]⟩

/-- The group of the sample directory. -/
def sampleGroup : List Path := ["a.txt", "b.txt", "c.txt"]

/-- The index of the sample directory. -/
def sampleIndex : List (String × List Path) :=
  [("h1", ["a.txt", "b.txt", "c.txt"]), ("h2", ["d.txt"])]

/-- The pairs recorded for the sample directory, in walk order. -/
def sampleRecs : List (Path × String) :=
  [("a.txt", "h1"), ("b.txt", "h1"), ("c.txt", "h1"), ("d.txt", "h2")]

/-- A directory in which `b.txt.bak` is a hard link to `b.txt`. -/
def linkedFS : FS := ⟨[("a.txt", fileA), ("b.txt", fileB), ("b.txt.bak", fileB)]⟩

/-- A directory in which the first path of the group is the backup path of its member. -/
def backupNamedFS : FS := ⟨[("x.bak", fileA), ("x", fileB)]⟩

/-- A directory with two files of the same content, `a.txt` and `b.txt`, and a file
`b.txt.bak` with a content of its own. -/
def uniqueAtBackupFS : FS := ⟨[("a.txt", fileA), ("b.txt", fileB), ("b.txt.bak", fileD)]⟩

/-- The index of that directory: one group of two paths and one group of one path. -/
def uniqueAtBackupIndex : List (String × List Path) :=
  [("h1", ["a.txt", "b.txt"]), ("h2", ["b.txt.bak"])]

theorem bak_ne (p : Path) : bak p ≠ p := by
  intro h
  have := congrArg String.length h
  simp [bak, String.length_append] at this
  revert this
  decide

theorem ne_bak (p : Path) : p ≠ bak p := fun h => bak_ne p h.symm

theorem lookup_filter (l : List (Path × File)) (p q : Path) :
    lookup (l.filter (fun e => e.1 ≠ p)) q = if q = p then none else lookup l q := by
  induction l with
  | nil => simp [lookup]
  | cons e l ih =>
    by_cases he : e.1 = p
    · rw [List.filter_cons_of_neg (by simpa using he), ih]
      by_cases hq : q = p
      · simp [hq]
      · have : q ≠ e.1 := fun h => hq (h.trans he)
        simp [hq, lookup, this]
    · rw [List.filter_cons_of_pos (by simpa using he)]
      simp only [lookup, ih]
      by_cases hq : q = p
      · subst hq
        have : q ≠ e.1 := fun h => he h.symm
        simp [this]
      · simp [hq]

theorem del_files (fs : FS) (p q : Path) :
    (fs.del p).files q = if q = p then none else fs.files q :=
  lookup_filter fs.entries p q

theorem put_files (fs : FS) (p q : Path) (f : File) :
    (fs.put p f).files q = if q = p then some f else fs.files q := by
  show lookup ((p, f) :: (fs.del p).entries) q = _
  simp only [lookup]
  split
  · rfl
  · next h => exact (del_files fs p q).trans (if_neg h)

theorem move_files (fs : FS) (a b q : Path) (f : File) :
    (fs.move a b f).files q =
      if q = b then some f else if q = a then none else fs.files q := by
  rw [FS.move, put_files, del_files]

@[simp] theorem put_files_same (fs : FS) (p : Path) (f : File) :
    (fs.put p f).files p = some f := by
  simp [put_files]

/-- Every file of the filesystem has an inode number below `next`. -/
theorem ino_lt_next {fs : FS} {q : Path} {f : File} (h : fs.files q = some f) :
    f.ino < fs.next := by
  obtain ⟨l⟩ := fs
  simp only [FS.files, FS.next] at *
  induction l with
  | nil => simp [lookup] at h
  | cons e l ih =>
    simp only [lookup] at h
    simp only [List.map_cons, List.foldr_cons]
    split at h
    · cases h; omega
    · have := ih h; omega

/-- Every entry of the filesystem has an inode number below `next`. -/
theorem entry_lt_next {fs : FS} {e : Path × File} (h : e ∈ fs.entries) : e.2.ino < fs.next := by
  obtain ⟨l⟩ := fs
  simp only [FS.next] at *
  induction l with
  | nil => cases h
  | cons a l ih =>
    simp only [List.map_cons, List.foldr_cons]
    rcases List.mem_cons.1 h with rfl | h
    · omega
    · have := ih h; omega

/-- Changing a file whose inode number no other path holds changes the entry of its path. -/
theorem update_put (fs : FS) (p : Path) (f : File) (g : File → File) (hf : fs.next ≤ f.ino) :
    (fs.put p f).update f.ino g = fs.put p (g f) := by
  have hmap : ∀ l : List (Path × File), (∀ e ∈ l, e.2.ino < fs.next) →
      l.map (fun e => if e.2.ino = f.ino then (e.1, g e.2) else e) = l := by
    intro l hl
    induction l with
    | nil => rfl
    | cons a l ih =>
      have ha := hl a (List.mem_cons_self _ _)
      have hne : ¬ a.2.ino = f.ino := by omega
      rw [List.map_cons, if_neg hne, ih (fun e he => hl e (List.mem_cons_of_mem _ he))]
  have hdel : ∀ e ∈ (fs.del p).entries, e.2.ino < fs.next :=
    fun e he => entry_lt_next (List.mem_of_mem_filter he)
  simp only [FS.update, FS.put, List.map_cons, if_true, hmap _ hdel]

/-! ## The calls -/

theorem osStat_some {ok : Bool} {fs : FS} {p : Path} {f : File} (h : osStat ok fs p = some f) :
    fs.files p = some f := by
  unfold osStat at h
  split at h
  · exact h
  · cases h

/-- A rename that succeeds found a file at `old`, and either `new` held a file with the same
inode number and nothing changed, or the file moved. -/
theorem osRename_some {ok : Bool} {fs fs1 : FS} {a b : Path} (h : osRename ok fs a b = some fs1) :
    ∃ f, fs.files a = some f ∧
      (((fs.files b).map (fun g => g.ino) = some f.ino ∧ fs1 = fs) ∨
        ((fs.files b).map (fun g => g.ino) ≠ some f.ino ∧ fs1 = fs.move a b f)) := by
  unfold osRename at h
  split at h
  · split at h
    · cases h
    · next f hf =>
      split at h
      · next hl => exact ⟨f, hf, Or.inl ⟨hl, (Option.some.inj h).symm⟩⟩
      · next hl => exact ⟨f, hf, Or.inr ⟨hl, (Option.some.inj h).symm⟩⟩
  · cases h

theorem cloneFile_some {ok : Bool} {u g : Nat} {fs fs1 : FS} {a b : Path}
    (h : cloneFile ok u g fs a b = some fs1) :
    ∃ s, fs.files a = some s ∧ fs.files b = none ∧
      fs1 = fs.put b ⟨fs.next, s.content, s.mode, u, g⟩ := by
  unfold cloneFile at h
  split at h
  · split at h
    · next s hs hd => exact ⟨s, hs, hd, (Option.some.inj h).symm⟩
    · cases h
  · cases h

theorem cloneFile_none {ok : Bool} {u g : Nat} {fs : FS} {a b : Path} {f : File}
    (h : fs.files b = some f) : cloneFile ok u g fs a b = none := by
  unfold cloneFile
  split
  · split
    · next hd => rw [h] at hd; cases hd
    · rfl
  · rfl

theorem osChmod_eq (fs : FS) (p : Path) (f : File) (ok : Bool) (m : Nat)
    (hf : fs.next ≤ f.ino) :
    osChmod ok (fs.put p f) p m =
      if ok then some (fs.put p ⟨f.ino, f.content, m, f.uid, f.gid⟩) else none := by
  simp [osChmod, update_put _ _ _ _ hf]

theorem osChown_eq (fs : FS) (p : Path) (f : File) (ok : Bool) (u g : Nat)
    (hf : fs.next ≤ f.ino) :
    osChown ok (fs.put p f) p u g =
      if ok then some (fs.put p ⟨f.ino, f.content, f.mode, u, g⟩) else none := by
  simp [osChown, update_put _ _ _ _ hf]

/-! ## The loop body -/

/-- The ways the loop body can end, each with the calls made, the filesystems between the
calls and the filesystem left: the stat fails; the backup rename fails; the backup path is a
hard link to `p`, so that both renames do nothing and the clone finds `p` taken; or the
backup rename moves the file, and then the clone fails and the rollback rename fails, the
clone fails and the rollback rename succeeds, or the clone succeeds. -/
theorem tx_spec (canon p : Path) (e : Env) (fs : FS) :
    transaction canon p e fs = ⟨.statFailed, [(.stat, false)], [], fs⟩ ∨
    ∃ o, fs.files p = some o ∧
      (transaction canon p e fs = ⟨.backupFailed, [(.stat, true), (.backup, false)], [fs], fs⟩ ∨
        ((fs.files (bak p)).map (fun g => g.ino) = some o.ino ∧
          (transaction canon p e fs =
              ⟨.irreversible,
                [(.stat, true), (.backup, true), (.clone, false), (.rollback, false)],
                [fs, fs, fs], fs⟩ ∨
            transaction canon p e fs = ⟨.rolledBack, callsRolledBack, [fs, fs, fs], fs⟩)) ∨
        ((fs.files (bak p)).map (fun g => g.ino) ≠ some o.ino ∧
          (transaction canon p e fs =
              ⟨.irreversible,
                [(.stat, true), (.backup, true), (.clone, false), (.rollback, false)],
                [fs, fs.move p (bak p) o, fs.move p (bak p) o], fs.move p (bak p) o⟩ ∨
            transaction canon p e fs =
              ⟨.rolledBack, callsRolledBack,
                [fs, fs.move p (bak p) o, fs.move p (bak p) o],
                (fs.move p (bak p) o).move (bak p) p o⟩ ∨
            ∃ c, (fs.move p (bak p) o).files canon = some c ∧
              transaction canon p e fs =
                ⟨.committed,
                  [(.stat, true), (.backup, true), (.clone, true), (.chmod, e.chmod),
                    (.chown, e.chown)],
                  [fs, fs.move p (bak p) o,
                    (fs.move p (bak p) o).put p
                      ⟨(fs.move p (bak p) o).next, c.content, c.mode, e.cuid, e.cgid⟩,
                    (fs.move p (bak p) o).put p
                      ⟨(fs.move p (bak p) o).next, c.content,
                        if e.chmod then o.mode else c.mode, e.cuid, e.cgid⟩],
                  (fs.move p (bak p) o).put p
                    ⟨(fs.move p (bak p) o).next, c.content,
                      if e.chmod then o.mode else c.mode,
                      if e.chown then o.uid else e.cuid,
                      if e.chown then o.gid else e.cgid⟩⟩))) := by
  cases hst : osStat e.stat fs p with
  | none => left; simp [transaction, hst]
  | some o =>
    have hp := osStat_some hst
    right
    refine ⟨o, hp, ?_⟩
    cases h1 : osRename e.backup fs p (bak p) with
    | none => left; simp [transaction, hst, h1]
    | some mv =>
      right
      obtain ⟨o1, ho1, hcase⟩ := osRename_some h1
      obtain rfl : o = o1 := Option.some.inj (hp.symm.trans ho1)
      rcases hcase with ⟨hlink, rfl⟩ | ⟨hlink, rfl⟩
      · left
        refine ⟨hlink, ?_⟩
        have hc : cloneFile e.clone e.cuid e.cgid mv canon p = none := cloneFile_none hp
        cases hr : osRename e.rollback mv (bak p) p with
        | none => left; simp [transaction, hst, h1, hc, hr]
        | some fs2 =>
          right
          obtain ⟨g, hg, hcase2⟩ := osRename_some hr
          have hgo : g.ino = o.ino := by simpa [hg] using hlink
          rcases hcase2 with ⟨_, rfl⟩ | ⟨hno, _⟩
          · simp [transaction, hst, h1, hc, hr, callsRolledBack]
          · exact absurd (by simp [hp, hgo]) hno
      · right
        refine ⟨hlink, ?_⟩
        cases hc : cloneFile e.clone e.cuid e.cgid (fs.move p (bak p) o) canon p with
        | none =>
          cases hr : osRename e.rollback (fs.move p (bak p) o) (bak p) p with
          | none => left; simp [transaction, hst, h1, hc, hr]
          | some fs2 =>
            right; left
            obtain ⟨o2, ho2, hcase2⟩ := osRename_some hr
            rw [move_files, if_pos rfl] at ho2
            obtain rfl : o = o2 := Option.some.inj ho2
            rcases hcase2 with ⟨hyes, _⟩ | ⟨_, rfl⟩
            · simp [move_files, ne_bak] at hyes
            · simp [transaction, hst, h1, hc, hr, callsRolledBack]
        | some fs2 =>
          right; right
          obtain ⟨c, hcs, _, rfl⟩ := cloneFile_some hc
          refine ⟨c, hcs, ?_⟩
          have hm := fun ok m => osChmod_eq (fs.move p (bak p) o) p
            ⟨(fs.move p (bak p) o).next, c.content, c.mode, e.cuid, e.cgid⟩ ok m (le_refl _)
          have ho := fun md ok u g => osChown_eq (fs.move p (bak p) o) p
            ⟨(fs.move p (bak p) o).next, c.content, md, e.cuid, e.cgid⟩ ok u g (le_refl _)
          cases hcm : e.chmod <;> cases hco : e.chown <;>
            simp [transaction, hst, h1, hc, hcm, hco, hm, ho]

/-- The loop body changes the files at `p` and at its backup path only. -/
theorem tx_frame (canon p : Path) (e : Env) (fs : FS) {q : Path} (h1 : q ≠ p)
    (h2 : q ≠ bak p) :
    (transaction canon p e fs).fs.files q = fs.files q ∧
      ∀ s ∈ (transaction canon p e fs).mid, s.files q = fs.files q := by
  rcases tx_spec canon p e fs with
    h | ⟨o, _, h | ⟨_, h | h⟩ | ⟨_, h | h | ⟨c, _, h⟩⟩⟩ <;>
    rw [h] <;> simp [put_files, move_files, h1, h2]

/-- The calls of a rolled-back body and of a committed body. -/
theorem tx_calls_out (canon p : Path) (e : Env) (fs : FS) :
    ((transaction canon p e fs).calls = callsRolledBack ↔
      (transaction canon p e fs).out = .rolledBack) ∧
    ((Op.clone, true) ∈ (transaction canon p e fs).calls ↔
      (transaction canon p e fs).out = .committed) := by
  rcases tx_spec canon p e fs with
    h | ⟨o, _, h | ⟨_, h | h⟩ | ⟨_, h | h | ⟨c, _, h⟩⟩⟩ <;>
    rw [h] <;> simp [callsRolledBack]

/-- A rolled-back member whose backup path was not a hard link to `p`: its file is back at
`p` and the backup path is free. -/
theorem tx_rolledBack {canon p : Path} {e : Env} {fs : FS}
    (hout : (transaction canon p e fs).out = .rolledBack)
    (hlink : (fs.files (bak p)).map (fun g => g.ino) ≠ (fs.files p).map (fun g => g.ino)) :
    (∃ o, fs.files p = some o) ∧ (transaction canon p e fs).fs.files p = fs.files p ∧
      (transaction canon p e fs).fs.files (bak p) = none := by
  rcases tx_spec canon p e fs with
    h | ⟨o, hp, h | ⟨ha, h | h⟩ | ⟨_, h | h | ⟨c, _, h⟩⟩⟩ <;> rw [h] at hout ⊢ <;>
    cases hout
  · exact absurd (by rw [ha, hp]; rfl) hlink
  · exact ⟨⟨o, hp⟩, by simp [move_files, hp], by simp [move_files, bak_ne]⟩

/-- A committed member: the backup path holds its former file, and `p` holds a new file with
the content of the clone source. -/
theorem tx_committed {canon p : Path} {e : Env} {fs : FS}
    (hout : (transaction canon p e fs).out = .committed) :
    ∃ o c f, fs.files p = some o ∧ canon ≠ p ∧
      (transaction canon p e fs).fs.files p = some f ∧
      (transaction canon p e fs).fs.files (bak p) = some o ∧
      (transaction canon p e fs).fs.files canon = some c ∧
      o.ino < f.ino ∧ f.content = c.content ∧
      ((Op.chmod, true) ∈ (transaction canon p e fs).calls → f.mode = o.mode) ∧
      ((Op.chown, true) ∈ (transaction canon p e fs).calls → f.uid = o.uid ∧ f.gid = o.gid) ∧
      (canon ≠ bak p → fs.files canon = some c) := by
  rcases tx_spec canon p e fs with
    h | ⟨o, hp, h | ⟨_, h | h⟩ | ⟨_, h | h | ⟨c, hc, h⟩⟩⟩ <;> rw [h] at hout ⊢ <;>
    cases hout
  have hne : canon ≠ p := by
    intro hcp
    rw [hcp] at hc
    simp [move_files, ne_bak] at hc
  have hlt : o.ino < (fs.move p (bak p) o).next :=
    ino_lt_next (q := bak p) (by simp [move_files])
  refine ⟨o, c, _, hp, hne, put_files_same _ _ _, ?_, ?_, hlt, rfl, ?_, ?_, ?_⟩
  · simp [put_files, move_files, bak_ne]
  · rw [put_files, if_neg hne]; exact hc
  · intro hm; simp at hm; simp [hm]
  · intro hm; simp at hm; simp [hm]
  · intro hnb
    rw [move_files, if_neg hnb, if_neg hne] at hc
    exact hc

/-- When no file is at `p`, the stat fails and no call follows it. -/
theorem tx_absent {canon p : Path} {e : Env} {fs : FS} (h : fs.files p = none) :
    (transaction canon p e fs).mid = [] := by
  rcases tx_spec canon p e fs with h1 | ⟨o, hp, _⟩
  · rw [h1]
  · rw [h] at hp; cases hp

/-- Between two consecutive calls of the loop body the file that `p` held before is at `p` or
at its backup path, and not at both unless the backup path held it before. -/
theorem tx_mid (canon p : Path) (e : Env) {fs : FS} {o : File} (hp : fs.files p = some o) :
    ∀ s ∈ (transaction canon p e fs).mid,
      (s.files p = some o ∨ s.files (bak p) = some o) ∧
        (fs.files (bak p) ≠ some o → ¬ (s.files p = some o ∧ s.files (bak p) = some o)) := by
  have h0 : (fs.files p = some o ∨ fs.files (bak p) = some o) ∧
      (fs.files (bak p) ≠ some o → ¬ (fs.files p = some o ∧ fs.files (bak p) = some o)) :=
    ⟨Or.inl hp, fun hb h => hb h.2⟩
  have h1 : ((fs.move p (bak p) o).files p = some o ∨
        (fs.move p (bak p) o).files (bak p) = some o) ∧
      (fs.files (bak p) ≠ some o → ¬ ((fs.move p (bak p) o).files p = some o ∧
        (fs.move p (bak p) o).files (bak p) = some o)) := by
    simp [move_files, ne_bak]
  have h2 : ∀ f : File, f.ino = (fs.move p (bak p) o).next →
      (((fs.move p (bak p) o).put p f).files p = some o ∨
        ((fs.move p (bak p) o).put p f).files (bak p) = some o) ∧
      (fs.files (bak p) ≠ some o → ¬ (((fs.move p (bak p) o).put p f).files p = some o ∧
        ((fs.move p (bak p) o).put p f).files (bak p) = some o)) := by
    intro f hf
    have hlt : o.ino < (fs.move p (bak p) o).next :=
      ino_lt_next (q := bak p) (by simp [move_files])
    refine ⟨Or.inr (by simp [put_files, move_files, bak_ne]), fun _ h => ?_⟩
    rw [put_files_same] at h
    have := congrArg File.ino (Option.some.inj h.1)
    omega
  rcases tx_spec canon p e fs with h | ⟨o1, hp1, h⟩
  · rw [h]; simp
  · obtain rfl : o = o1 := Option.some.inj (hp.symm.trans hp1)
    rcases h with h | ⟨_, h | h⟩ | ⟨_, h | h | ⟨c, _, h⟩⟩ <;> rw [h] <;> intro s hs <;>
      simp only [List.mem_cons, List.mem_singleton, List.not_mem_nil, or_false] at hs
    · subst hs; exact h0
    · rcases hs with rfl | rfl | rfl <;> exact h0
    · rcases hs with rfl | rfl | rfl <;> exact h0
    · rcases hs with rfl | rfl | rfl <;> first | exact h0 | exact h1
    · rcases hs with rfl | rfl | rfl <;> first | exact h0 | exact h1
    · rcases hs with rfl | rfl | rfl | rfl <;> first | exact h0 | exact h1 | exact h2 _ rfl

/-! ## The loop of processDuplicates -/

theorem loop_nil (canon : Path) (env : Nat → Env) (i : Nat) (fs : FS) :
    processLoop canon env i [] fs = ⟨none, fs, []⟩ := rfl

/-- One step of the loop: either the body returned and the loop ends with this one record, or
the loop goes on from the filesystem the body left. -/
theorem loop_cons (canon : Path) (env : Nat → Env) (i : Nat) (p : Path) (rest : List Path)
    (fs : FS) :
    (((transaction canon p (env i) fs).out = .statFailed ∨
          (transaction canon p (env i) fs).out = .backupFailed) ∧
        (processLoop canon env i (p :: rest) fs).fs = (transaction canon p (env i) fs).fs ∧
        (processLoop canon env i (p :: rest) fs).log =
          [⟨i, p, fs, (transaction canon p (env i) fs).out,
            (transaction canon p (env i) fs).calls, (transaction canon p (env i) fs).mid,
            (transaction canon p (env i) fs).fs⟩]) ∨
      (((transaction canon p (env i) fs).out = .rolledBack ∨
          (transaction canon p (env i) fs).out = .irreversible ∨
          (transaction canon p (env i) fs).out = .committed) ∧
        (processLoop canon env i (p :: rest) fs).fs =
          (processLoop canon env (i + 1) rest (transaction canon p (env i) fs).fs).fs ∧
        (processLoop canon env i (p :: rest) fs).log =
          ⟨i, p, fs, (transaction canon p (env i) fs).out,
            (transaction canon p (env i) fs).calls, (transaction canon p (env i) fs).mid,
            (transaction canon p (env i) fs).fs⟩ ::
            (processLoop canon env (i + 1) rest (transaction canon p (env i) fs).fs).log) := by
  cases h : (transaction canon p (env i) fs).out <;> simp [processLoop, h]

/-- Every record of the log is a run of the loop body on a path of the list, and a property
of the filesystem that every such run keeps holds before and after each of them and at the
end. -/
theorem loop_inv (canon : Path) (env : Nat → Env) (P : FS → Prop) :
    ∀ (rest : List Path) (i : Nat) (fs : FS),
      (∀ p ∈ rest, ∀ e s, P s → P (transaction canon p e s).fs) → P fs →
      P (processLoop canon env i rest fs).fs ∧
        ∀ r ∈ (processLoop canon env i rest fs).log,
          r.path ∈ rest ∧ i ≤ r.member ∧ P r.before ∧ P r.after ∧
            r.out = (transaction canon r.path (env r.member) r.before).out ∧
            r.calls = (transaction canon r.path (env r.member) r.before).calls ∧
            r.mid = (transaction canon r.path (env r.member) r.before).mid ∧
            r.after = (transaction canon r.path (env r.member) r.before).fs := by
  intro rest
  induction rest with
  | nil => intro i fs _ h0; simp [loop_nil, h0]
  | cons p rest ih =>
    intro i fs hstep h0
    have hp := hstep p (List.mem_cons_self _ _) (env i) fs h0
    rcases loop_cons canon env i p rest fs with ⟨_, hfs, hlog⟩ | ⟨_, hfs, hlog⟩
    · rw [hfs, hlog]
      refine ⟨hp, ?_⟩
      intro r hr
      rw [List.mem_singleton] at hr
      subst hr
      exact ⟨List.mem_cons_self _ _, le_refl _, h0, hp, rfl, rfl, rfl, rfl⟩
    · have ih2 := ih (i + 1) (transaction canon p (env i) fs).fs
        (fun q hq => hstep q (List.mem_cons_of_mem _ hq)) hp
      rw [hfs, hlog]
      refine ⟨ih2.1, ?_⟩
      intro r hr
      rcases List.mem_cons.1 hr with rfl | hr
      · exact ⟨List.mem_cons_self _ _, le_refl _, h0, hp, rfl, rfl, rfl, rfl⟩
      · obtain ⟨h1, h2, h3⟩ := ih2.2 r hr
        exact ⟨List.mem_cons_of_mem _ h1, by omega, h3⟩

/-- The loop changes no path that is neither a member nor the backup path of a member. -/
theorem loop_frame (canon : Path) (env : Nat → Env) (rest : List Path) (i : Nat) (fs : FS)
    {q : Path} (hq : ∀ p ∈ rest, q ≠ p ∧ q ≠ bak p) :
    (processLoop canon env i rest fs).fs.files q = fs.files q ∧
      ∀ r ∈ (processLoop canon env i rest fs).log,
        r.before.files q = fs.files q ∧ r.after.files q = fs.files q ∧
          ∀ s ∈ r.mid, s.files q = fs.files q := by
  have h := loop_inv canon env (fun s => s.files q = fs.files q) rest i fs
    (fun p hp e s hs => by
      show (transaction canon p e s).fs.files q = fs.files q
      rw [(tx_frame canon p e s (hq p hp).1 (hq p hp).2).1]; exact hs) rfl
  refine ⟨h.1, ?_⟩
  intro r hr
  obtain ⟨hmem, _, hb, ha, _, _, hm, _⟩ := h.2 r hr
  refine ⟨hb, ha, ?_⟩
  intro s hs
  rw [hm] at hs
  rw [(tx_frame canon r.path _ r.before (hq _ hmem).1 (hq _ hmem).2).2 s hs]
  exact hb

/-- The records of `processDuplicates` are runs of the loop body on members of index at least
one, with the first path as the clone source. -/
theorem pd_log (canon : Path) (rest : List Path) (env : Nat → Env) (fs : FS) :
    ∀ r ∈ (processDuplicates (canon :: rest) env fs).log,
      r.path ∈ rest ∧ 1 ≤ r.member ∧
        r.out = (transaction canon r.path (env r.member) r.before).out ∧
        r.calls = (transaction canon r.path (env r.member) r.before).calls ∧
        r.mid = (transaction canon r.path (env r.member) r.before).mid ∧
        r.after = (transaction canon r.path (env r.member) r.before).fs := by
  intro r hr
  obtain ⟨h1, h2, _, _, h3⟩ :=
    (loop_inv canon env (fun _ => True) rest 1 fs (fun _ _ _ _ _ => trivial) trivial).2 r hr
  exact ⟨h1, h2, h3⟩

/-- Recording a list of pairs appends to each key, in order, the paths recorded with it. -/
theorem foldl_record (recs : List (Path × String)) :
    ∀ (index : String → List Path) (h : String),
      recs.foldl (fun index r => record index r.1 r.2) index h =
        index h ++ (recs.filter (fun r => r.2 = h)).map (fun r => r.1) := by
  induction recs with
  | nil => intro index h; simp
  | cons r recs ih =>
    intro index h
    rw [List.foldl_cons, ih]
    by_cases hr : r.2 = h
    · subst hr
      simp [record, List.filter_cons]
    · have hh : ¬ h = r.2 := fun e => hr e.symm
      simp [record, List.filter_cons, hr, hh]

theorem hashLookup_eq (recs : List (Path × String)) (h : String) :
    hashLookup recs h = (recs.filter (fun r => r.2 = h)).map (fun r => r.1) := by
  simp [hashLookup, foldl_record]

theorem mem_hashLookup (recs : List (Path × String)) (p : Path) (h : String) :
    p ∈ hashLookup recs h ↔ (p, h) ∈ recs := by
  rw [hashLookup_eq]
  simp only [List.mem_map, List.mem_filter, decide_eq_true_eq]
  constructor
  · rintro ⟨⟨q, g⟩, ⟨hm, hg⟩, hq⟩
    simp only at hg hq
    subst hg hq
    exact hm
  · intro hm
    exact ⟨(p, h), ⟨hm, rfl⟩, rfl⟩

theorem count_hashLookup (recs : List (Path × String)) (hnd : (recs.map (fun r => r.1)).Nodup)
    (p : Path) (h : String) (hm : (p, h) ∈ recs) : (hashLookup recs h).count p = 1 := by
  have hsub : (hashLookup recs h).Sublist (recs.map (fun r => r.1)) := by
    rw [hashLookup_eq]
    exact (List.filter_sublist recs).map _
  have hnd2 : (hashLookup recs h).Nodup := hnd.sublist hsub
  exact List.count_eq_one_of_mem hnd2 ((mem_hashLookup recs p h).2 hm)

theorem fingerprint_unique (recs : List (Path × String)) (hnd : (recs.map (fun r => r.1)).Nodup)
    {p : Path} {h g : String} (h1 : (p, h) ∈ recs) (h2 : (p, g) ∈ recs) : g = h := by
  induction recs with
  | nil => cases h1
  | cons r recs ih =>
    rw [List.map_cons, List.nodup_cons] at hnd
    rcases List.mem_cons.1 h1 with e1 | m1 <;> rcases List.mem_cons.1 h2 with e2 | m2
    · rw [← e1] at e2; exact (Prod.mk.inj e2).2
    · exfalso
      apply hnd.1
      rw [← e1]
      exact List.mem_map.2 ⟨(p, g), m2, rfl⟩
    · exfalso
      apply hnd.1
      rw [← e2]
      exact List.mem_map.2 ⟨(p, h), m1, rfl⟩
    · exact ih hnd.2 m1 m2

/-! ## The properties -/

/-- C1 as stated fails: `b.txt.bak` is a hard link to `b.txt` and every call is let through;
the backup rename of `b.txt` does nothing, the clone finds `b.txt` taken and fails, and at
each of the three points between the four calls both `b.txt` and `b.txt.bak` hold the file
that was at `b.txt`. -/
theorem backup_path_linked :
    linkedFS.files "b.txt" = some fileB ∧ linkedFS.files "b.txt.bak" = some fileB ∧
      ((processDuplicates ["a.txt", "b.txt", "b.txt.bak"] (fun _ => allOk) linkedFS).log.map
        (fun r => (r.member, r.path, r.calls, r.mid))).head? =
          some (1, "b.txt", callsRolledBack, [linkedFS, linkedFS, linkedFS]) :=
  ⟨by decide, by decide, by decide⟩

/-- C1, amended: for every member whose loop body runs in `processDuplicates` and whatever the
outcome of each call, at every point between two consecutive calls of that body the file
that the member's path held when the body started is at the member's path or at its backup
path, and not at both unless the backup path already held that same file when the body
started; when the path held no file, the stat is the only call and there is no such
point. -/
theorem backup_invariant (paths : List Path) (env : Nat → Env) (fs : FS)
    (r : Record) (hr : r ∈ (processDuplicates paths env fs).log) :
    (r.before.files r.path = none → r.mid = []) ∧
      ∀ o, r.before.files r.path = some o → ∀ s ∈ r.mid,
        (s.files r.path = some o ∨ s.files (bak r.path) = some o) ∧
          (r.before.files (bak r.path) ≠ some o →
            ¬ (s.files r.path = some o ∧ s.files (bak r.path) = some o)) := by
  cases paths with
  | nil => simp [processDuplicates] at hr
  | cons canon rest =>
    obtain ⟨_, _, _, _, hmid, _⟩ := pd_log canon rest env fs r hr
    rw [hmid]
    exact ⟨tx_absent, fun o ho => tx_mid canon r.path _ ho⟩

theorem backup_invariant_witness :
    ∃ r ∈ (processDuplicates sampleGroup (failAt 2 cloneFails) sampleFS).log,
      r.member = 2 ∧ r.path = "c.txt" ∧ r.before.files "c.txt" = some fileC ∧
        r.before.files "c.txt.bak" ≠ some fileC ∧ r.mid.length = 3 ∧
        ∀ s ∈ r.mid,
          (s.files "c.txt" = some fileC ∨ s.files "c.txt.bak" = some fileC) ∧
            ¬ (s.files "c.txt" = some fileC ∧ s.files "c.txt.bak" = some fileC) :=
  ⟨_, List.Mem.tail _ (List.Mem.head _), rfl, rfl, by decide, by decide, rfl, fun s hs =>
    ⟨(((backup_invariant sampleGroup (failAt 2 cloneFails) sampleFS _
        (List.Mem.tail _ (List.Mem.head _))).2 fileC (by decide)) s hs).1,
      (((backup_invariant sampleGroup (failAt 2 cloneFails) sampleFS _
        (List.Mem.tail _ (List.Mem.head _))).2 fileC (by decide)) s hs).2 (by decide)⟩⟩

/-- C2 as stated fails: `b.txt.bak` is a hard link to `b.txt` and every call is let through;
the backup rename succeeds and does nothing, the clone finds `b.txt` taken and fails, the
rollback rename succeeds and does nothing, and afterwards `b.txt.bak` still holds the
file. -/
theorem rollback_leaves_link :
    ((processDuplicates ["a.txt", "b.txt", "b.txt.bak"] (fun _ => allOk) linkedFS).log.map
      (fun r => (r.member, r.path, r.calls, r.before.files "b.txt",
        r.before.files "b.txt.bak", r.after.files "b.txt", r.after.files "b.txt.bak"))).head? =
      some (1, "b.txt", callsRolledBack, some fileB, some fileB, some fileB, some fileB) :=
  rfl

/-- C2, amended: for every member whose loop body runs in `processDuplicates` with the stat and
the backup rename succeeding, the clone failing and the rollback rename succeeding, and
whose backup path did not hold the member's file (was not a hard link to it) when the body
started, the file at the member's path after the body is the file that was there before
(same content, permission bits, owner and group), and no file is at the backup path. -/
theorem rollback_restores (paths : List Path) (env : Nat → Env) (fs : FS) (r : Record)
    (hr : r ∈ (processDuplicates paths env fs).log) (hcalls : r.calls = callsRolledBack)
    (hlink : (r.before.files (bak r.path)).map (fun g => g.ino) ≠
      (r.before.files r.path).map (fun g => g.ino)) :
    (∃ o, r.before.files r.path = some o) ∧ r.after.files r.path = r.before.files r.path ∧
      r.after.files (bak r.path) = none := by
  cases paths with
  | nil => simp [processDuplicates] at hr
  | cons canon rest =>
    obtain ⟨_, _, _, hc, _, hafter⟩ := pd_log canon rest env fs r hr
    rw [hafter]
    exact tx_rolledBack ((tx_calls_out canon r.path _ r.before).1.1 (hc ▸ hcalls)) hlink

theorem rollback_restores_witness :
    ∃ r ∈ (processDuplicates sampleGroup (failAt 2 cloneFails) sampleFS).log,
      r.calls = callsRolledBack ∧ r.path = "c.txt" ∧
        r.before.files "c.txt" = some fileC ∧ r.before.files "c.txt.bak" = none ∧
        r.after.files "c.txt" = some fileC ∧ r.after.files "c.txt.bak" = none :=
  ⟨_, List.Mem.tail _ (List.Mem.head _), rfl, rfl, rfl, rfl,
    (rollback_restores sampleGroup (failAt 2 cloneFails) sampleFS _
      (List.Mem.tail _ (List.Mem.head _)) rfl (by decide)).2.1,
    (rollback_restores sampleGroup (failAt 2 cloneFails) sampleFS _
      (List.Mem.tail _ (List.Mem.head _)) rfl (by decide)).2.2⟩

/-- C3 at a failing input: in the sample group the stat of `b.txt` fails; the loop returns,
the body never runs for `c.txt` (its file stays, no backup appears) although it would have
committed; the same happens when the backup rename of `b.txt` fails; whereas after a clone
failure of `b.txt` the loop goes on to `c.txt`. -/
theorem stat_failure_ends_group :
    (processDuplicates sampleGroup (failAt 1 statFails) sampleFS).log.map
        (fun r => (r.member, r.path, r.out)) = [(1, "b.txt", .statFailed)] ∧
      (processDuplicates sampleGroup (failAt 1 statFails) sampleFS).err = some (.stat "b.txt") ∧
      (processDuplicates sampleGroup (failAt 1 statFails) sampleFS).fs.files "c.txt" = some fileC ∧
      (processDuplicates sampleGroup (failAt 1 statFails) sampleFS).fs.files "c.txt.bak" = none ∧
      (transaction "a.txt" "c.txt" (failAt 1 statFails 2) sampleFS).out = .committed ∧
      (processDuplicates sampleGroup (failAt 1 backupFails) sampleFS).log.map
        (fun r => (r.member, r.path, r.out)) = [(1, "b.txt", .backupFailed)] ∧
      (processDuplicates sampleGroup (failAt 1 backupFails) sampleFS).fs.files "c.txt.bak" = none ∧
      (processDuplicates sampleGroup (failAt 1 cloneFails) sampleFS).log.map
        (fun r => (r.member, r.path, r.out)) =
          [(1, "b.txt", .rolledBack), (2, "c.txt", .committed)] := by
  decide

/-- C4 as stated fails: in the group `x.bak`, `x` with every call succeeding the backup rename
of `x` replaces the file at the first path `x.bak`, which then holds the former file of
`x`; and in the group `a.txt`, `a.txt` with the rollback rename failing the first path is
left with no file. -/
theorem canonical_replaced :
    backupNamedFS.files "x.bak" = some fileA ∧
      (processDuplicates ["x.bak", "x"] (fun _ => allOk) backupNamedFS).fs.files "x.bak" =
        some fileB ∧
      (processDuplicates ["x.bak", "x"] (fun _ => allOk) backupNamedFS).log.map
        (fun r => (r.member, r.path, r.calls)) = [(1, "x", callsAllOk)] ∧
      sampleFS.files "a.txt" = some fileA ∧
      (processDuplicates ["a.txt", "a.txt"] (failAt 1 rollbackFails) sampleFS).fs.files "a.txt" =
        none ∧
      (processDuplicates ["a.txt", "a.txt"] (failAt 1 rollbackFails) sampleFS).log.map
        (fun r => (r.member, r.path, r.out)) = [(1, "a.txt", .irreversible)] :=
  ⟨by decide, by decide, by decide, by decide, by decide, by decide⟩

/-- C4, amended: for every group whose first path is neither the path nor the backup path
of one of its other members, and whatever the outcome of each call, the file at the first
path is the same before `processDuplicates`, before, between and after the calls of every
member, and after `processDuplicates`. -/
theorem canonical_unchanged (canon : Path) (rest : List Path) (env : Nat → Env) (fs : FS)
    (h : ∀ q ∈ rest, canon ≠ q ∧ canon ≠ bak q) :
    (processDuplicates (canon :: rest) env fs).fs.files canon = fs.files canon ∧
      ∀ r ∈ (processDuplicates (canon :: rest) env fs).log,
        r.before.files canon = fs.files canon ∧ r.after.files canon = fs.files canon ∧
          ∀ s ∈ r.mid, s.files canon = fs.files canon :=
  loop_frame canon env rest 1 fs h

theorem canonical_unchanged_witness :
    (∀ q ∈ ["b.txt", "c.txt"], "a.txt" ≠ q ∧ "a.txt" ≠ bak q) ∧
      (processDuplicates sampleGroup (failAt 2 cloneFails) sampleFS).fs.files "a.txt" =
        some fileA :=
  ⟨by decide,
    (canonical_unchanged "a.txt" ["b.txt", "c.txt"] (failAt 2 cloneFails) sampleFS (by decide)).1⟩

/-- C5 at a failing input: `b.txt.bak` is the only member of its group; with every call
succeeding, the backup rename of `b.txt` replaces it, and after `migrate` the path holds
the former file of `b.txt`. -/
theorem unique_file_replaced :
    uniqueAtBackupFS.files "b.txt.bak" = some fileD ∧
      (migrate uniqueAtBackupIndex (fun _ _ => allOk) uniqueAtBackupFS).fs.files "b.txt.bak" =
        some fileB ∧
      (migrate uniqueAtBackupIndex (fun _ _ => allOk) uniqueAtBackupFS).log.map
        (fun g => (g.group, g.paths, g.res.log.map (fun r => (r.path, r.calls)))) =
          [(0, ["a.txt", "b.txt"], [("b.txt", callsAllOk)])] :=
  ⟨by decide, by decide, rfl⟩

/-- C7: for every member whose loop body runs in `processDuplicates` with the stat, the
backup rename, the clone, the chmod and the chown all succeeding, the file at the member's
path after the body has the permission bits, owner and group of the file that was there
when the body started, and the content of the file at the first path of the group (which
is also that path's file before the body, unless the first path is the member's backup
path). -/
theorem metadata_restored (canon : Path) (rest : List Path) (env : Nat → Env) (fs : FS)
    (r : Record) (hr : r ∈ (processDuplicates (canon :: rest) env fs).log)
    (hcalls : r.calls = callsAllOk) :
    ∃ o f c, r.before.files r.path = some o ∧ r.after.files r.path = some f ∧
      r.after.files canon = some c ∧
      f.mode = o.mode ∧ f.uid = o.uid ∧ f.gid = o.gid ∧ f.content = c.content ∧
      (canon ≠ bak r.path → r.before.files canon = some c) := by
  obtain ⟨_, _, _, hc, _, hafter⟩ := pd_log canon rest env fs r hr
  rw [hc] at hcalls
  have hout := (tx_calls_out canon r.path (env r.member) r.before).2.1
    (by rw [hcalls]; decide)
  obtain ⟨o, c, f, h1, _, h2, _, h3, _, h4, h5, h6, h7⟩ := tx_committed hout
  rw [hcalls] at h5 h6
  refine ⟨o, f, c, h1, hafter ▸ h2, hafter ▸ h3, h5 (by decide), (h6 (by decide)).1,
    (h6 (by decide)).2, h4, h7⟩

theorem metadata_restored_witness :
    ∃ r ∈ (processDuplicates sampleGroup (failAt 2 cloneFails) sampleFS).log,
      r.calls = callsAllOk ∧ r.path = "b.txt" ∧
        ∃ o f c, r.before.files r.path = some o ∧ r.after.files r.path = some f ∧
          r.after.files "a.txt" = some c ∧
          f.mode = o.mode ∧ f.uid = o.uid ∧ f.gid = o.gid ∧ f.content = c.content ∧
          ("a.txt" ≠ bak r.path → r.before.files "a.txt" = some c) :=
  ⟨_, List.Mem.head _, rfl, rfl,
    metadata_restored "a.txt" ["b.txt", "c.txt"] (failAt 2 cloneFails) sampleFS _ (List.Mem.head _) rfl⟩

/-- C9: the index built from the empty one by recording a list of pairs (path, fingerprint)
maps each fingerprint to the recorded paths with that fingerprint, in recording order; two
paths are in a same group exactly when they were recorded with a same fingerprint; and when
every path is recorded once, two recorded paths are in a same group exactly when their
fingerprints are equal, and every recorded path is in the group of its fingerprint, once,
and in no other group. -/
theorem hashLookup_groups (recs : List (Path × String)) :
    (∀ h, hashLookup recs h = (recs.filter (fun r => r.2 = h)).map (fun r => r.1)) ∧
      (∀ p q, (∃ g, p ∈ hashLookup recs g ∧ q ∈ hashLookup recs g) ↔
        ∃ g, (p, g) ∈ recs ∧ (q, g) ∈ recs) ∧
      ((recs.map (fun r => r.1)).Nodup →
        ∀ p h, (p, h) ∈ recs →
          (∀ q k, (q, k) ∈ recs →
            ((∃ g, p ∈ hashLookup recs g ∧ q ∈ hashLookup recs g) ↔ h = k)) ∧
          (∀ g, p ∈ hashLookup recs g ↔ g = h) ∧ (hashLookup recs h).count p = 1) := by
  refine ⟨hashLookup_eq recs, ?_, ?_⟩
  · intro p q
    simp only [mem_hashLookup]
  · intro hnd p h hp
    refine ⟨?_, ?_, count_hashLookup recs hnd p h hp⟩
    · intro q k hq
      simp only [mem_hashLookup]
      constructor
      · rintro ⟨g, hpg, hqg⟩
        rw [← fingerprint_unique recs hnd hp hpg, ← fingerprint_unique recs hnd hq hqg]
      · intro e
        exact ⟨h, hp, e ▸ hq⟩
    · intro g
      rw [mem_hashLookup]
      exact ⟨fun hg => fingerprint_unique recs hnd hp hg, fun e => e ▸ hp⟩

theorem hashLookup_groups_witness :
    (sampleRecs.map (fun r => r.1)).Nodup ∧ ("b.txt", "h1") ∈ sampleRecs ∧
      hashLookup sampleRecs "h1" = ["a.txt", "b.txt", "c.txt"] ∧
      hashLookup sampleRecs "h2" = ["d.txt"] ∧
      (∀ g, "b.txt" ∈ hashLookup sampleRecs g ↔ g = "h1") ∧
      (hashLookup sampleRecs "h1").count "b.txt" = 1 :=
  ⟨by decide, by decide, ((hashLookup_groups sampleRecs).1 "h1").trans (by decide),
    ((hashLookup_groups sampleRecs).1 "h2").trans (by decide),
    ((hashLookup_groups sampleRecs).2.2 (by decide) "b.txt" "h1" (by decide)).2.1,
    ((hashLookup_groups sampleRecs).2.2 (by decide) "b.txt" "h1" (by decide)).2.2⟩

/-- C10 as stated fails: three runs of `migrate` on the sample index, with two members
committed, with one rolled back, and with one left at its backup path by a failed rollback
rename, return the same value. -/
theorem migrate_value_blind :
    countOut .committed (migrate sampleIndex (fun _ _ => allOk) sampleFS) = 2 ∧
      countOut .committed (migrate sampleIndex (fun _ => failAt 2 cloneFails) sampleFS) = 1 ∧
      countOut .rolledBack (migrate sampleIndex (fun _ => failAt 2 cloneFails) sampleFS) = 1 ∧
      countOut .rolledBack (migrate sampleIndex (fun _ => failAt 2 cloneAndRollbackFail) sampleFS) = 0 ∧
      countOut .irreversible (migrate sampleIndex (fun _ => failAt 2 cloneAndRollbackFail) sampleFS) = 1 ∧
      (migrate sampleIndex (fun _ _ => allOk) sampleFS).err =
        (migrate sampleIndex (fun _ => failAt 2 cloneFails) sampleFS).err ∧
      (migrate sampleIndex (fun _ => failAt 2 cloneFails) sampleFS).err =
        (migrate sampleIndex (fun _ => failAt 2 cloneAndRollbackFail) sampleFS).err := by
  decide

/-- C10, amended: `migrate` returns nil for every index, every filesystem and every outcome
of the calls; the value says nothing about the members. -/
theorem migrate_returns_nil (index : List (String × List Path)) (env : Nat → Nat → Env)
    (fs : FS) : (migrate index env fs).err = none :=
  rfl
end Dedupe
